import Mathlib

/-
Verification of the reusable logic in the NU-MILA repository:
the neighbor-overlap counter `common_neighbors` from the timing notebook,
and the `cosine` similarity helper defined in the same notebook.

Numeric code in the notebook operates on numpy float arrays; it is embedded
here over the real numbers (exact arithmetic), with `np.sum(a**2.0)` as a sum
of squares, `np.dot` as the dot product of equally indexed components, and
`x ** -0.5` as the real power `x ^ (-0.5 : ℝ)`.
-/

namespace NuMila

/-- Modelled from the spec: the notebook's `common_neighbors` iterates over
`utils.neighbors(lst)`, but the `utils` module is not among the sources.
Per the spec, the neighbor pairs of a sequence of length n are the (n−1)
ordered pairs of adjacent elements taken in order. -/
def neighbors {α : Type*} (l : List α) : List (α × α) :=
  l.zip l.tail

/-- Embedding of `common_neighbors(lst1, lst2)` from the timing notebook:
the sum, over the Cartesian product of both neighbor-pair lists, of the
boolean (0/1) comparison of the two pairs. -/
def common_neighbors {α : Type*} [DecidableEq α] (lst1 lst2 : List α) : ℕ :=
  ((neighbors lst1).map fun pair1 =>
    ((neighbors lst2).map fun pair2 => if pair1 = pair2 then 1 else 0).sum).sum

/-- A list sum of mapped values as a sum over the index range, reading
entries with `getD` at an arbitrary default. -/
theorem sum_map_getD {α : Type*} {M : Type*} [AddCommMonoid M] (f : α → M) (d : α) :
    ∀ l : List α, (l.map f).sum = ∑ i ∈ Finset.range l.length, f (l.getD i d)
  | [] => by simp
  | a :: l => by
    rw [List.map_cons, List.sum_cons, sum_map_getD f d l, List.length_cons,
      Finset.sum_range_succ']
    simp [add_comm]

theorem length_neighbors {α : Type*} (l : List α) :
    (neighbors l).length = l.length - 1 := by
  simp only [neighbors, List.length_zip, List.length_tail]
  exact min_eq_right (Nat.sub_le _ _)

theorem getD_neighbors {α : Type*} (l : List α) (d : α) (i : ℕ) (h : i < l.length - 1) :
    (neighbors l).getD i (d, d) = (l.getD i d, l.getD (i + 1) d) := by
  have h1 : i < (neighbors l).length := by rw [length_neighbors]; exact h
  have h2 : i < l.length := by omega
  have h3 : i + 1 < l.length := by omega
  rw [List.getD_eq_getElem _ _ h1, List.getD_eq_getElem _ _ h2, List.getD_eq_getElem _ _ h3]
  simp only [neighbors] at h1 ⊢
  rw [List.getElem_zip]
  simp [List.getElem_tail]

/-- The inner comprehension of `common_neighbors` counts occurrences;
the multiplicity is taken in the multiset view of the list. -/
theorem sum_map_ite_count {α : Type*} [DecidableEq α] (p : α) (l : List α) :
    ((l.map fun q => if p = q then 1 else 0)).sum = Multiset.count p ↑l := by
  induction l with
  | nil => simp
  | cons b l ih =>
    rw [List.map_cons, List.sum_cons, ih, ← Multiset.cons_coe, Multiset.count_cons]
    exact add_comm _ _

theorem common_neighbors_eq_sum_count {α : Type*} [DecidableEq α] (lst1 lst2 : List α) :
    common_neighbors lst1 lst2
      = ((neighbors lst1).map fun p => Multiset.count p ↑(neighbors lst2)).sum := by
  simp only [common_neighbors, sum_map_ite_count]

theorem sum_map_add_distrib {β : Type*} {M : Type*} [AddCommMonoid M]
    (f g : β → M) (l : List β) :
    ((l.map fun x => f x + g x)).sum = (l.map f).sum + (l.map g).sum := by
  induction l with
  | nil => simp
  | cons b l ih =>
    simp [ih, add_assoc, add_left_comm]

theorem ite_eq_flip {α : Type*} [DecidableEq α] (a : α) :
    (fun q => if q = a then (1 : ℕ) else 0) = fun q => if a = q then 1 else 0 := by
  funext q
  by_cases h : q = a
  · simp [h]
  · simp [h, Ne.symm h]

/-- Interchanging the roles of the two lists in a sum of occurrence counts. -/
theorem sum_count_comm {β : Type*} [DecidableEq β] (A B : List β) :
    ((A.map fun p => Multiset.count p ↑B)).sum
      = ((B.map fun p => Multiset.count p ↑A)).sum := by
  induction A with
  | nil => simp
  | cons a A ih =>
    rw [List.map_cons, List.sum_cons, ih]
    have h1 : (fun p => Multiset.count p (↑(a :: A) : Multiset β))
        = fun p => (if p = a then 1 else 0) + Multiset.count p ↑A := by
      funext p
      rw [← Multiset.cons_coe, Multiset.count_cons, add_comm]
    rw [h1, sum_map_add_distrib (fun p => if p = a then 1 else 0)
      (fun p => Multiset.count p ↑A) B, ite_eq_flip a, sum_map_ite_count a B]

/-- C1: common_neighbors counts the index pairs (i, j) whose adjacent pairs
(S1[i], S1[i+1]) and (S2[j], S2[j+1]) coincide, over the full Cartesian
product of index ranges; equivalently each distinct adjacent pair contributes
the product of its multiplicities in the two sequences; and on the concrete
example the count is 4. -/
theorem common_neighbors_cartesian {α : Type*} [DecidableEq α] (d : α) (S1 S2 : List α) :
    common_neighbors S1 S2 =
      ((Finset.range (S1.length - 1) ×ˢ Finset.range (S2.length - 1)).filter fun ij =>
        (S1.getD ij.1 d, S1.getD (ij.1 + 1) d)
          = (S2.getD ij.2 d, S2.getD (ij.2 + 1) d)).card
    ∧ common_neighbors S1 S2 =
        ∑ p ∈ (neighbors S1).toFinset,
          Multiset.count p ↑(neighbors S1) * Multiset.count p ↑(neighbors S2)
    ∧ common_neighbors [1, 2, 3, 1, 2] [1, 2, 4, 1, 2] = 4 := by
  refine ⟨?_, ?_, by decide⟩
  · rw [Finset.card_filter, Finset.sum_product]
    simp only [common_neighbors]
    rw [sum_map_getD _ (d, d) (neighbors S1), length_neighbors]
    refine Finset.sum_congr rfl fun i hi => ?_
    rw [sum_map_getD _ (d, d) (neighbors S2), length_neighbors]
    refine Finset.sum_congr rfl fun j hj => ?_
    rw [Finset.mem_range] at hi hj
    rw [getD_neighbors S1 d i hi, getD_neighbors S2 d j hj]
  · rw [common_neighbors_eq_sum_count, ← Multiset.sum_coe, ← Multiset.map_coe,
      Finset.sum_multiset_map_count, List.toFinset_coe]
    simp [smul_eq_mul]

/-- C5: common_neighbors is symmetric in its two arguments. -/
theorem common_neighbors_comm {α : Type*} [DecidableEq α] (S1 S2 : List α) :
    common_neighbors S1 S2 = common_neighbors S2 S1 := by
  rw [common_neighbors_eq_sum_count, common_neighbors_eq_sum_count, sum_count_comm]

/-- C6: the self-overlap of a sequence is the sum, over each distinct
adjacent pair it contains, of the square of that pair's multiplicity. -/
theorem common_neighbors_self {α : Type*} [DecidableEq α] (S : List α) :
    common_neighbors S S
      = ∑ p ∈ (neighbors S).toFinset, (Multiset.count p ↑(neighbors S)) ^ 2 := by
  rw [common_neighbors_eq_sum_count, ← Multiset.sum_coe, ← Multiset.map_coe,
    Finset.sum_multiset_map_count, List.toFinset_coe]
  simp [pow_two, smul_eq_mul]

/-- C7: a first sequence of length 0 or 1 has no adjacent pairs, so the
count is 0, with no error for any input lengths. -/
theorem common_neighbors_short {α : Type*} [DecidableEq α] (S1 S2 : List α)
    (h : S1.length ≤ 1) : common_neighbors S1 S2 = 0 := by
  have hn : neighbors S1 = [] := by
    cases S1 with
    | nil => rfl
    | cons x l =>
      cases l with
      | nil => rfl
      | cons y m => simp [List.length_cons] at h
  simp [common_neighbors, hn]

/-- Witness for C7 at the concrete input S1 = [], S2 = [1, 2]. -/
theorem common_neighbors_short_witness :
    common_neighbors ([] : List ℤ) [1, 2] = 0 :=
  common_neighbors_short [] [1, 2] (by decide)

/-- C9: the count is bounded by the sizes of the two adjacent-pair lists,
namely (n1 − 1) × (n2 − 1); the result is a natural number. -/
theorem common_neighbors_le_bound {α : Type*} [DecidableEq α] (S1 S2 : List α)
    (h1 : 1 ≤ S1.length) (h2 : 1 ≤ S2.length) :
    common_neighbors S1 S2 ≤ (S1.length - 1) * (S2.length - 1) := by
  rw [common_neighbors_eq_sum_count]
  have key := List.sum_le_card_nsmul
    ((neighbors S1).map fun p => Multiset.count p ↑(neighbors S2))
    ((neighbors S2).length) ?_
  · rw [List.length_map, length_neighbors, length_neighbors, smul_eq_mul] at key
    exact key
  · intro x hx
    rw [List.mem_map] at hx
    obtain ⟨p, _, rfl⟩ := hx
    exact (Multiset.count_le_card p _).trans_eq (Multiset.coe_card _)

/-- Witness for C9 at the concrete input S1 = [1, 2], S2 = [1, 3]. -/
theorem common_neighbors_le_bound_witness :
    common_neighbors [(1 : ℤ), 2] [1, 3]
      ≤ ([(1 : ℤ), 2].length - 1) * ([(1 : ℤ), 3].length - 1) :=
  common_neighbors_le_bound [(1 : ℤ), 2] [1, 3] (by decide) (by decide)

/-- Sum of squares of the entries, embedding `np.sum(a ** 2.0)` over exact
reals (elementwise squaring followed by summation). -/
def sumSq (a : List ℝ) : ℝ :=
  (a.map fun x => x ^ 2).sum

/-- Dot product of equally indexed components, embedding `np.dot(a, b)`. -/
def dot (a b : List ℝ) : ℝ :=
  ((a.zip b).map fun p => p.1 * p.2).sum

/-- Embedding of `cosine(a, b)` from the timing notebook, over exact reals:
computes the two sums of squares `sumSqA` and `sumSqB`, returns 0.0 under the
exact-equality zero guard, and otherwise the dot product scaled by the
combined power `(sumSqA * sumSqB) ** -0.5`. -/
noncomputable def cosine (a b : List ℝ) : ℝ :=
  if sumSq a = 0.0 ∨ sumSq b = 0.0 then 0.0
  else dot a b * (sumSq a * sumSq b) ^ (-0.5 : ℝ)

/-- The float literals of the source denote the real number zero. -/
theorem cosine_ite (a b : List ℝ) :
    cosine a b = if sumSq a = 0 ∨ sumSq b = 0 then 0
      else dot a b * (sumSq a * sumSq b) ^ (-0.5 : ℝ) := by
  have h0 : (0.0 : ℝ) = 0 := by norm_num
  unfold cosine
  simp only [h0]

theorem sumSq_nonneg (a : List ℝ) : 0 ≤ sumSq a := by
  apply List.sum_nonneg
  intro x hx
  rw [List.mem_map] at hx
  obtain ⟨y, _, rfl⟩ := hx
  exact sq_nonneg y

theorem sumSq_cons (x : ℝ) (l : List ℝ) : sumSq (x :: l) = x ^ 2 + sumSq l := by
  simp [sumSq]

/-- Over the reals, a sum of squares vanishes exactly on the zero vector. -/
theorem sumSq_eq_zero_iff (a : List ℝ) : sumSq a = 0 ↔ ∀ x ∈ a, x = 0 := by
  induction a with
  | nil => simp [sumSq]
  | cons x l ih =>
    rw [sumSq_cons, add_eq_zero_iff_of_nonneg (sq_nonneg x) (sumSq_nonneg l), ih]
    simp [List.forall_mem_cons, sq_eq_zero_iff]

theorem rpow_neg_half (x : ℝ) (hx : 0 ≤ x) : x ^ (-0.5 : ℝ) = (Real.sqrt x)⁻¹ := by
  have h05 : (-0.5 : ℝ) = -(1 / 2 : ℝ) := by norm_num
  rw [h05, Real.rpow_neg hx, ← Real.sqrt_eq_rpow]

theorem dot_self_eq_sumSq (v : List ℝ) : dot v v = sumSq v := by
  induction v with
  | nil => simp [dot, sumSq]
  | cons x l ih =>
    have h1 : dot (x :: l) (x :: l) = x * x + dot l l := by
      simp [dot, List.zip_cons_cons]
    rw [h1, sumSq_cons, ih]
    ring_nf

theorem sumSq_eq_range (a : List ℝ) :
    sumSq a = ∑ i ∈ Finset.range a.length, a.getD i 0 ^ 2 := by
  unfold sumSq
  rw [sum_map_getD _ (0 : ℝ) a]

theorem dot_eq_range (a b : List ℝ) (h : a.length = b.length) :
    dot a b = ∑ i ∈ Finset.range a.length, a.getD i 0 * b.getD i 0 := by
  unfold dot
  rw [sum_map_getD _ ((0 : ℝ), (0 : ℝ)) (a.zip b), List.length_zip]
  have hmin : a.length ⊓ b.length = a.length := by rw [h]; exact min_self _
  rw [hmin]
  refine Finset.sum_congr rfl fun i hi => ?_
  rw [Finset.mem_range] at hi
  have hib : i < b.length := h ▸ hi
  have hiz : i < (a.zip b).length := by
    rw [List.length_zip]; exact lt_min hi hib
  rw [List.getD_eq_getElem _ _ hiz, List.getD_eq_getElem _ _ hi,
    List.getD_eq_getElem _ _ hib, List.getElem_zip]

/-- Cauchy–Schwarz for the list dot product and sums of squares. -/
theorem abs_dot_le (a b : List ℝ) (h : a.length = b.length) :
    |dot a b| ≤ Real.sqrt (sumSq a) * Real.sqrt (sumSq b) := by
  have hb' : sumSq b = ∑ i ∈ Finset.range a.length, b.getD i 0 ^ 2 := by
    rw [sumSq_eq_range, h]
  rw [dot_eq_range a b h, sumSq_eq_range a, hb']
  have h1 := Real.sum_mul_le_sqrt_mul_sqrt (Finset.range a.length)
    (fun i => a.getD i 0) (fun i => b.getD i 0)
  have h2 := Real.sum_mul_le_sqrt_mul_sqrt (Finset.range a.length)
    (fun i => a.getD i 0) (fun i => -(b.getD i 0))
  simp only [mul_neg, Finset.sum_neg_distrib, neg_sq] at h2
  exact abs_le.mpr ⟨by linarith, h1⟩

/-- C2: if either sum of squares is exactly zero, the guard fires and the
result is exactly 0, skipping the scaled-dot-product branch; over exact
arithmetic the sum of squares vanishes iff the vector is all-zero; any
non-zero sums, however small, take the general branch (exact-equality
guard, not an epsilon test); and cosine([0,0,0],[1,2,3]) = 0. -/
theorem cosine_zero_fallback (a b : List ℝ) :
    (sumSq a = 0 ∨ sumSq b = 0 → cosine a b = 0) ∧
    (sumSq a = 0 ↔ ∀ x ∈ a, x = 0) ∧
    (sumSq a ≠ 0 → sumSq b ≠ 0 →
      cosine a b = dot a b * (sumSq a * sumSq b) ^ (-0.5 : ℝ)) ∧
    cosine [0, 0, 0] [1, 2, 3] = 0 := by
  refine ⟨?_, sumSq_eq_zero_iff a, ?_, ?_⟩
  · intro hg
    rw [cosine_ite, if_pos hg]
  · intro ha hb
    rw [cosine_ite, if_neg (not_or.mpr ⟨ha, hb⟩)]
  · rw [cosine_ite, if_pos (Or.inl (by norm_num [sumSq]))]

/-- Witness for C2 at a = [0,0,0], b = [1,2,3]. -/
theorem cosine_zero_fallback_witness :
    cosine [0, 0, 0] [1, 2, 3] = 0 :=
  (cosine_zero_fallback [0, 0, 0] [1, 2, 3]).1 (Or.inl (by norm_num [sumSq]))

/-- C3: for equal-dimension vectors the returned value lies in [-1, 1]. -/
theorem cosine_mem_Icc (a b : List ℝ) (h : a.length = b.length) :
    -1 ≤ cosine a b ∧ cosine a b ≤ 1 := by
  rw [cosine_ite]
  by_cases hg : sumSq a = 0 ∨ sumSq b = 0
  · rw [if_pos hg]
    norm_num
  · rw [if_neg hg]
    push_neg at hg
    obtain ⟨ha, hb⟩ := hg
    have hA : 0 < sumSq a := (sumSq_nonneg a).lt_of_ne (Ne.symm ha)
    have hB : 0 < sumSq b := (sumSq_nonneg b).lt_of_ne (Ne.symm hb)
    rw [rpow_neg_half _ (mul_nonneg hA.le hB.le), Real.sqrt_mul hA.le]
    have hsa : 0 < Real.sqrt (sumSq a) := Real.sqrt_pos.mpr hA
    have hsb : 0 < Real.sqrt (sumSq b) := Real.sqrt_pos.mpr hB
    have hs : 0 < Real.sqrt (sumSq a) * Real.sqrt (sumSq b) := mul_pos hsa hsb
    have habs : |dot a b * (Real.sqrt (sumSq a) * Real.sqrt (sumSq b))⁻¹| ≤ 1 := by
      rw [abs_mul, abs_inv, abs_of_pos hs, ← div_eq_mul_inv, div_le_one hs]
      exact abs_dot_le a b h
    exact abs_le.mp habs

/-- Witness for C3 at a = [1,0], b = [0,1]. -/
theorem cosine_mem_Icc_witness :
    -1 ≤ cosine [1, 0] [0, 1] ∧ cosine [1, 0] [0, 1] ≤ 1 :=
  cosine_mem_Icc [1, 0] [0, 1] rfl

/-- C4: on non-zero vectors the computed expression, the dot product scaled
by the inverse square root of the product of squared norms, agrees with the
naive quotient by the product of the Euclidean norms; and this is what
cosine returns there. -/
theorem cosine_opt_eq_naive (a b : List ℝ) (h : a.length = b.length)
    (ha : ¬ ∀ x ∈ a, x = 0) (hb : ¬ ∀ x ∈ b, x = 0) :
    cosine a b = dot a b * (sumSq a * sumSq b) ^ (-0.5 : ℝ) ∧
    cosine a b = dot a b / (Real.sqrt (sumSq a) * Real.sqrt (sumSq b)) := by
  have ha' : sumSq a ≠ 0 := fun hz => ha ((sumSq_eq_zero_iff a).mp hz)
  have hb' : sumSq b ≠ 0 := fun hz => hb ((sumSq_eq_zero_iff b).mp hz)
  have hmain : cosine a b = dot a b * (sumSq a * sumSq b) ^ (-0.5 : ℝ) := by
    rw [cosine_ite, if_neg (not_or.mpr ⟨ha', hb'⟩)]
  refine ⟨hmain, ?_⟩
  rw [hmain, rpow_neg_half _ (mul_nonneg (sumSq_nonneg a) (sumSq_nonneg b)),
    Real.sqrt_mul (sumSq_nonneg a), div_eq_mul_inv]

/-- Witness for C4 at a = [1], b = [2]. -/
theorem cosine_opt_eq_naive_witness :
    cosine [1] [2] = dot [1] [2] * (sumSq [1] * sumSq [2]) ^ (-0.5 : ℝ) ∧
    cosine [1] [2] = dot [1] [2] / (Real.sqrt (sumSq [1]) * Real.sqrt (sumSq [2])) :=
  cosine_opt_eq_naive [1] [2] rfl (by norm_num) (by norm_num)

/-- C8: the cosine of a non-zero vector with itself is exactly 1. -/
theorem cosine_self_eq_one (v : List ℝ) (hv : ¬ ∀ x ∈ v, x = 0) :
    cosine v v = 1 := by
  have h0 : sumSq v ≠ 0 := fun hz => hv ((sumSq_eq_zero_iff v).mp hz)
  have hpos : 0 < sumSq v := (sumSq_nonneg v).lt_of_ne (Ne.symm h0)
  rw [cosine_ite, if_neg (not_or.mpr ⟨h0, h0⟩), dot_self_eq_sumSq,
    rpow_neg_half _ (mul_nonneg hpos.le hpos.le), Real.sqrt_mul_self hpos.le]
  exact mul_inv_cancel₀ h0

/-- Witness for C8 at v = [1]. -/
theorem cosine_self_eq_one_witness : cosine [1] [1] = 1 :=
  cosine_self_eq_one [1] (by norm_num)

theorem sumSq_scale (c : ℝ) (a : List ℝ) :
    sumSq (a.map fun x => c * x) = c ^ 2 * sumSq a := by
  induction a with
  | nil => simp [sumSq]
  | cons x l ih =>
    have h1 : sumSq ((x :: l).map fun y => c * y)
        = (c * x) ^ 2 + sumSq (l.map fun y => c * y) := by
      rw [List.map_cons, sumSq_cons]
    rw [h1, sumSq_cons, ih]
    ring

theorem dot_scale_left (c : ℝ) :
    ∀ a b : List ℝ, dot (a.map fun x => c * x) b = c * dot a b
  | [], _ => by simp [dot]
  | _ :: _, [] => by simp [dot]
  | x :: l, y :: m => by
    have h1 : dot ((x :: l).map fun z => c * z) (y :: m)
        = (c * x) * y + dot (l.map fun z => c * z) m := by
      simp [dot, List.zip_cons_cons]
    have h2 : dot (x :: l) (y :: m) = x * y + dot l m := by
      simp [dot, List.zip_cons_cons]
    rw [h1, h2, dot_scale_left c l m]
    ring

/-- C10: scaling one argument by a positive constant leaves the cosine
unchanged, in both the fallback branch and the general branch. -/
theorem cosine_scale_invariant (a b : List ℝ) (c : ℝ) (hc : 0 < c)
    (h : a.length = b.length) :
    cosine (a.map fun x => c * x) b = cosine a b := by
  have hc2 : c ^ 2 ≠ 0 := pow_ne_zero 2 hc.ne'
  have hs : sumSq (a.map fun x => c * x) = c ^ 2 * sumSq a := sumSq_scale c a
  by_cases hg : sumSq a = 0 ∨ sumSq b = 0
  · have hg2 : sumSq (a.map fun x => c * x) = 0 ∨ sumSq b = 0 := by
      rcases hg with h1 | h1
      · exact Or.inl (by rw [hs, h1, mul_zero])
      · exact Or.inr h1
    rw [cosine_ite, cosine_ite, if_pos hg2, if_pos hg]
  · push_neg at hg
    obtain ⟨ha, hb⟩ := hg
    have ha2 : sumSq (a.map fun x => c * x) ≠ 0 := by
      rw [hs]; exact mul_ne_zero hc2 ha
    rw [cosine_ite, cosine_ite, if_neg (not_or.mpr ⟨ha2, hb⟩),
      if_neg (not_or.mpr ⟨ha, hb⟩), dot_scale_left, hs]
    have hA : 0 ≤ sumSq a := sumSq_nonneg a
    have hB : 0 ≤ sumSq b := sumSq_nonneg b
    rw [rpow_neg_half _ (mul_nonneg (mul_nonneg (sq_nonneg c) hA) hB),
      rpow_neg_half _ (mul_nonneg hA hB), mul_assoc (c ^ 2),
      Real.sqrt_mul (sq_nonneg c), Real.sqrt_sq hc.le, mul_inv]
    calc c * dot a b * ((c⁻¹) * (Real.sqrt (sumSq a * sumSq b))⁻¹)
        = (c * c⁻¹) * (dot a b * (Real.sqrt (sumSq a * sumSq b))⁻¹) := by ring
      _ = dot a b * (Real.sqrt (sumSq a * sumSq b))⁻¹ := by
          rw [mul_inv_cancel₀ hc.ne', one_mul]

/-- Witness for C10 at a = [1], b = [1], c = 2. -/
theorem cosine_scale_invariant_witness :
    cosine ([(1 : ℝ)].map fun x => 2 * x) [1] = cosine [1] [1] :=
  cosine_scale_invariant [1] [1] 2 (by norm_num) rfl

end NuMila
